import Mathlib

/-!
Shallow embedding of the logic-bearing utilities of the congress
administration console (a React + Firebase web app), together with
theorems checking the natural-language specification against them.

Conventions used throughout:
- Firestore collections are modelled as lists of documents (snapshot
  order) or as finite maps `String → Option Doc` keyed by document id.
- JavaScript numbers are modelled as `Int` (all values the code
  manipulates here are integers); machine strings as `String`.
- A query `orderBy(field, desc) + limit(1)` is modelled by sorting the
  documents that carry the field with an insertion sort under the
  Firestore value order and taking the head.
- Functions that `throw` are modelled with `Except String`.
- External effects (the actual byte upload, download URLs, metadata,
  server timestamps, document-id generation) are outside the model; the
  functions return the data they would hand to the SDK.
-/

/-! ## Shared JavaScript / string modelling -/

/-- JavaScript word characters, the regex class `\w` = `[A-Za-z0-9_]`
(ASCII, as in the source regexes which are not unicode-flagged). -/
def jsWordChar (c : Char) : Bool :=
  c.isAlphanum || c = '_'

/-- Lexicographic comparison of strings as char lists by code point,
modelling the ordering JavaScript and Firestore use for strings. -/
def charListLe : List Char → List Char → Bool
  | [], _ => true
  | _ :: _, [] => false
  | a :: as, b :: bs =>
    if a.toNat < b.toNat then true
    else if b.toNat < a.toNat then false
    else charListLe as bs

/-- Longest digit run at the front of a char list, as a natural number;
`none` when there is no leading digit (parseInt returns NaN there). -/
def parseDigits (cs : List Char) : Option Nat :=
  let ds := cs.takeWhile Char.isDigit
  if ds = [] then none
  else some (ds.foldl (fun acc c => acc * 10 + (c.toNat - '0'.toNat)) 0)

/-- Model of JavaScript `parseInt(s, 10)`: skip leading whitespace, read
an optional sign and then leading decimal digits; `none` models NaN. -/
def parseIntJS (s : String) : Option Int :=
  let cs := s.toList.dropWhile fun c => c = ' ' || c = '\t' || c = '\n' || c = '\r'
  match cs with
  | '-' :: rest => (parseDigits rest).map fun n => -(n : Int)
  | '+' :: rest => (parseDigits rest).map fun n => (n : Int)
  | rest => (parseDigits rest).map fun n => (n : Int)

/-! ## src/lib/congresId.ts -/

def DEFAULT_CONGRES_ID : String := "Fragilite_2025"

/-- Model of `getCurrentCongresId`. The argument models the outcome of
`localStorage.getItem('currentCongresId')`: `.error` a throwing read,
`.ok none` a missing key (JS `null`), `.ok (some s)` a stored string.
The source is `try { return localStorage.getItem(KEY) || DEFAULT } catch
{ return DEFAULT }`; `null` and the empty string are falsy under `||`. -/
def getCurrentCongresId (read : Except Unit (Option String)) : String :=
  match read with
  | .error _ => DEFAULT_CONGRES_ID
  | .ok none => DEFAULT_CONGRES_ID
  | .ok (some s) => if s = "" then DEFAULT_CONGRES_ID else s

/-! ## src/storage/storageApi.ts -/

inductive StorageArea where
  | qrcodes
  | qrcodesCarteDeVisite
  | photos
  | badges
  | intervenants
  | imgIntervenants
  | imgSponsors
  | programme
  | abstracts
  | plan
deriving DecidableEq

/-- The string a `StorageArea` interpolates to (the TS value is the
string itself; the Lean enum carries it through this function). -/
def StorageArea.text : StorageArea → String
  | .qrcodes => "qrcodes"
  | .qrcodesCarteDeVisite => "qrcodesCarteDeVisite"
  | .photos => "photos"
  | .badges => "badges"
  | .intervenants => "intervenants"
  | .imgIntervenants => "imgIntervenants"
  | .imgSponsors => "imgSponsors"
  | .programme => "programme"
  | .abstracts => "abstracts"
  | .plan => "plan"

def userOwned : List StorageArea :=
  [.qrcodes, .qrcodesCarteDeVisite, .photos, .badges, .intervenants]

def adminOnlyWrite : List StorageArea :=
  [.imgIntervenants, .imgSponsors, .programme, .abstracts, .plan]

/-- A signed-in user; only the uid is relevant to path construction. -/
structure AuthUser where
  uid : String
deriving DecidableEq

/-- One step of `name.replace(/[^\w.\-]/g, '_')`: the regex replaces
each character outside `\w`, `.`, `-` with an underscore. -/
def sanitizeChar (c : Char) : Char :=
  if jsWordChar c || c = '.' || c = '-' then c else '_'

/-- Model of `sanitizeFileName` (identical in storageApi.ts, files.ts
and StorageDemo.tsx). -/
def sanitizeFileName (name : String) : String :=
  String.mk (name.toList.map sanitizeChar)

/-- Model of `pathFor`. `ts` is the `Date.now()` timestamp, passed in
because real time is outside the model. Mirrors the source: the
user-owned branch throws without a user and otherwise dispatches on the
area; shared areas (and the unreachable fall-through) use the flat
`area/ts_name` shape. -/
def pathFor (area : StorageArea) (user : Option AuthUser) (ts : Nat)
    (fileName : String) : Except String String :=
  let fn := sanitizeFileName fileName
  if userOwned.contains area then
    match user with
    | none => .error "Utilisateur requis pour cette zone."
    | some u =>
      let uid := u.uid
      if area = .intervenants then
        .ok ("intervenants/" ++ uid ++ "/" ++ Nat.repr ts ++ "_" ++ fn)
      else if area = .photos then
        .ok ("photos/" ++ uid ++ "/" ++ Nat.repr ts ++ "_" ++ fn)
      else if area = .qrcodes then
        .ok ("qrcodes/" ++ uid ++ "/" ++ Nat.repr ts ++ "_" ++ fn)
      else if area = .qrcodesCarteDeVisite then
        .ok ("qrcodesCarteDeVisite/" ++ uid ++ "/" ++ Nat.repr ts ++ "_" ++ fn)
      else if area = .badges then
        .ok ("badges/" ++ uid ++ "/" ++ Nat.repr ts ++ "_" ++ fn)
      else
        .ok (area.text ++ "/" ++ Nat.repr ts ++ "_" ++ fn)
  else
    .ok (area.text ++ "/" ++ Nat.repr ts ++ "_" ++ fn)

/-- Model of `uploadToArea` up to the point where the SDK upload starts:
the admin gate runs first, then the path is computed (which may throw);
a returned `.ok p` means the upload is attempted at path `p`. -/
def uploadToArea (area : StorageArea) (user : Option AuthUser)
    (isAdmin : Bool) (ts : Nat) (fileName : String) : Except String String :=
  if adminOnlyWrite.contains area && !isAdmin then
    .error "Droits admin requis pour cette zone."
  else
    pathFor area user ts fileName

/-! ## Firestore field values and the orderBy query model -/

/-- A Firestore field value as far as the index/order utilities are
concerned: null, a number, or a string.  (The TS types declare these
fields as `number`; `null`/string cover the defensive coercions the
code performs on data of other provenance.) -/
inductive IdxVal where
  | null
  | num (n : Int)
  | str (s : String)
deriving DecidableEq

/-- Firestore value ordering restricted to the modelled types:
null sorts before numbers, numbers before strings; numbers compare
numerically, strings lexicographically. -/
def fsLe : IdxVal → IdxVal → Bool
  | .null, _ => true
  | .num _, .null => false
  | .num x, .num y => decide (x ≤ y)
  | .num _, .str _ => true
  | .str _, .null => false
  | .str _, .num _ => false
  | .str x, .str y => charListLe x.toList y.toList

/-- Insert into a sorted list, placing `x` before the first element `y`
with `r x y`. -/
def insertBy (r : α → α → Bool) (x : α) : List α → List α
  | [] => [x]
  | y :: ys => if r x y then x :: y :: ys else y :: insertBy r x ys

/-- Insertion sort under `r` (used to model a Firestore `orderBy`). -/
def sortBy (r : α → α → Bool) : List α → List α
  | [] => []
  | x :: xs => insertBy r x (sortBy r xs)

/-- The maximum of a list of Firestore values under `fsLe` (the element
an `orderBy desc / limit 1` query surfaces), `none` on the empty list. -/
def fsMax : List IdxVal → Option IdxVal
  | [] => none
  | x :: xs =>
    match fsMax xs with
    | none => some x
    | some m => some (if fsLe m x then x else m)

/-- JavaScript `String(v)` on the modelled values. -/
def jsStringOf : IdxVal → String
  | .null => "null"
  | .num n => toString n
  | .str s => s

/-- The shared shape of `getNextPresentationIndex` and
`getNextLinkOrder`: from the list of values of the ordered field (one
per document that carries the field, in snapshot order) compute
`max(field) + 1`.  Mirrors the source lines
`max = snap.empty ? 0 : (snap.docs[0].data().f ?? 0)` and
`num = typeof max === 'number' ? max : parseInt(String(max), 10) || 0`. -/
def nextFromFieldValues (vals : List IdxVal) : Int :=
  let snapDocs := sortBy (fun a b => fsLe b a) vals
  let maxV : IdxVal :=
    match snapDocs.head? with
    | none => .num 0
    | some v => if v = .null then .num 0 else v
  let num : Int :=
    match maxV with
    | .num n => n
    | v => (parseIntJS (jsStringOf v)).getD 0
  num + 1

/-! ## src/firestore/firestoreApi.ts — sessions and presentations -/

/-- A presentation document, reduced to the fields the modelled
functions read.  `index` is `none` for a document missing the field
(such documents are excluded by `orderBy('index')`). -/
structure Presentation where
  index : Option IdxVal
  title : String

/-- Model of `getNextPresentationIndex` for one session, whose
`presentations` subcollection holds `pres`. -/
def getNextPresentationIndex (pres : List Presentation) : Int :=
  nextFromFieldValues (pres.filterMap Presentation.index)

/-- Model of `countPresentationsInCongres`: the sessions snapshot is a
list of (session id, presentations subcollection) pairs; the loop adds
each session's server-side count to a running total. -/
def countPresentationsInCongres
    (sessions : List (String × List Presentation)) : Nat :=
  sessions.foldl (fun total s => total + s.2.length) 0

/-! ## src/firestore/firestoreApi.ts — deleteSessionCascade -/

/-- The documents of one congress relevant to the cascade: the session
document ids, and the (sessionId, presentationId) pairs naming the
presentation documents. -/
structure FsState where
  sessions : List String
  pres : List (String × String)
deriving DecidableEq

/-- A delete operation queued in a write batch. -/
inductive WriteOp where
  | delSession (sid : String)
  | delPres (sid : String) (pid : String)

/-- Applying one queued delete to the state. -/
def applyOp (st : FsState) : WriteOp → FsState
  | .delSession sid => { st with sessions := st.sessions.filter fun s => s ≠ sid }
  | .delPres sid pid => { st with pres := st.pres.filter fun p => p ≠ (sid, pid) }

/-- A Firestore batch commit is atomic: on success every queued write
applies, on failure none does.  `ok` models the commit outcome. -/
def commitBatch (st : FsState) (ops : List WriteOp) (ok : Bool) : FsState :=
  if ok then ops.foldl applyOp st else st

/-- Model of `deleteSessionCascade`: snapshot the session's
presentations, queue a delete for each plus one for the session
document, and commit the batch. -/
def deleteSessionCascade (st : FsState) (sid : String) (ok : Bool) : FsState :=
  let presSnap := (st.pres.filter fun p => p.1 = sid).map Prod.snd
  let ops := presSnap.map (WriteOp.delPres sid) ++ [WriteOp.delSession sid]
  commitBatch st ops ok

/-! ## src/firestore/firestoreApi.ts — links -/

/-- A stored document of the `liens` collection, reduced to the fields
the modelled functions touch. -/
structure LinkDoc where
  title : String
  url : String
  category : Option String
  order : Option IdxVal
  isExternal : Option Bool
deriving DecidableEq

/-- The argument of `createLink` (TS: `Omit<LinkItem, ...> & { order?:
number }`); `order`, when given, is a number. -/
structure LinkData where
  title : String
  url : String
  category : Option String
  order : Option Int
  isExternal : Option Bool

/-- Model of `getNextLinkOrder` over the `liens` collection. -/
def getNextLinkOrder (links : List LinkDoc) : Int :=
  nextFromFieldValues (links.filterMap LinkDoc.order)

/-- Model of `createLink`: the returned value is the document written
by `addDoc` (the generated id and server timestamps are external). -/
def createLink (links : List LinkDoc) (data : LinkData) : LinkDoc :=
  let ord : Int :=
    match data.order with
    | some o => o
    | none => getNextLinkOrder links
  { title := data.title
    url := data.url
    category := data.category
    order := some (.num ord)
    isExternal := some (data.isExternal.getD true) }

/-- The argument shape of `swapLinkOrder`: `{ id: string; order?: number }`. -/
structure LinkRef where
  id : String
  order : Option Int

/-- One `batch.update(doc(liensCol, id), { order: v })`: fails (failing
the whole commit) when the document does not exist, otherwise rewrites
exactly the `order` field of exactly that document. -/
def batchUpdateOrder (db : String → Option LinkDoc) (id : String) (v : Int) :
    Option (String → Option LinkDoc) :=
  match db id with
  | none => none
  | some d => some fun k => if k = id then some { d with order := some (.num v) } else db k

/-- Model of `swapLinkOrder`: read the two passed orders (missing
treated as 0), queue the two updates, commit atomically (`none` models
a failed commit, which leaves the store untouched). -/
def swapLinkOrder (db : String → Option LinkDoc) (a b : LinkRef) :
    Option (String → Option LinkDoc) :=
  let ao := a.order.getD 0
  let bo := b.order.getD 0
  (batchUpdateOrder db a.id bo).bind fun db1 => batchUpdateOrder db1 b.id ao

/-! ## Part 009 — stripUndefined -/

/-- A JavaScript value as far as `stripUndefined` inspects it. -/
inductive JsValue where
  | undef
  | null
  | bool (b : Bool)
  | num (n : Int)
  | str (s : String)
  | date (t : Int)
  | arr (elems : List JsValue)
  | obj (fields : List (String × JsValue))

/-- The JS test `v !== undefined`, negated. -/
def JsValue.isUndef : JsValue → Bool
  | .undef => true
  | _ => false

/-- Model of `stripUndefined`: arrays recurse and drop undefined
elements, `Date` instances pass through, other objects rebuild their
entries keeping those whose cleaned value is defined, and every other
value (including `undefined` and `null`) is returned unchanged. -/
def stripUndefined (v : JsValue) : JsValue :=
  match v with
  | .arr elems =>
    .arr (((elems.attach.map fun d => stripUndefined d.1).filter
      fun item => !item.isUndef))
  | .date t => .date t
  | .obj fields =>
    .obj (fields.attach.filterMap fun d =>
      let cleaned := stripUndefined d.1.2
      if !cleaned.isUndef then some (d.1.1, cleaned) else none)
  | other => other
termination_by sizeOf v
decreasing_by
  · cases d; rename_i x hx
    have h1 : sizeOf x < sizeOf elems := List.sizeOf_lt_of_mem hx
    simp_all
    omega
  · cases d; rename_i x hx
    have h1 : sizeOf x < sizeOf fields := List.sizeOf_lt_of_mem hx
    cases x
    simp_all
    omega

/-- Whether `undefined` occurs anywhere inside a value (the value
itself, an array element, or an object field value, recursively);
spec-side notion for the claim about `stripUndefined`. -/
def containsUndef (v : JsValue) : Bool :=
  match v with
  | .undef => true
  | .arr elems => elems.attach.any fun d => containsUndef d.1
  | .obj fields => fields.attach.any fun d => containsUndef d.1.2
  | _ => false
termination_by sizeOf v
decreasing_by
  · cases d; rename_i x hx
    have h1 : sizeOf x < sizeOf elems := List.sizeOf_lt_of_mem hx
    simp_all
    omega
  · cases d; rename_i x hx
    have h1 : sizeOf x < sizeOf fields := List.sizeOf_lt_of_mem hx
    cases x
    simp_all
    omega

/-! ## src/pages/StorageDemo.tsx — collectAllPdfs -/

/-- A storage listing tree as `listAll` exposes it: the files (item
names) at this level and the named sub-folders. -/
inductive STree where
  | node (files : List String) (dirs : List (String × STree))

/-- Full path of a child of the reference at `base` (the bucket root
has the empty full path). -/
def joinPath (base name : String) : String :=
  if base = "" then name else base ++ "/" ++ name

/-- Everything before the last slash: models
`fullPath.slice(0, fullPath.lastIndexOf('/'))`. -/
def dropLastSeg : List Char → List Char
  | [] => []
  | c :: cs => if '/' ∈ cs then c :: dropLastSeg cs else []

/-- The `folder` computation of `collectAllPdfs`:
`fullPath.includes('/') ? fullPath.slice(0, lastIndexOf('/')) : ''`. -/
def folderOf (path : String) : String :=
  if '/' ∈ path.toList then String.mk (dropLastSeg path.toList) else ""

/-- The fields of a collected row that are pure functions of the item
reference (url, timeCreated and size come from separate SDK calls and
are outside the model). -/
structure PdfItem where
  name : String
  path : String
  folder : String
deriving DecidableEq

/-- The filter `itemRef.name.toLowerCase().endsWith('.pdf')`. -/
def isPdfName (n : String) : Bool :=
  ".pdf".toList.isSuffixOf (n.toList.map Char.toLower)

/-- The row built for one matching item of the listing at `base`. -/
def pdfItemFor (base name : String) : PdfItem :=
  let path := joinPath base name
  { name := name, path := path, folder := folderOf path }

/-- Model of `collectAllPdfs` on the listing tree rooted at the
reference with full path `base`: keep the PDF-named items of this
level, and when sub-folders exist recurse into each and concatenate. -/
def collectAllPdfs (base : String) (t : STree) : List PdfItem :=
  match t with
  | .node files dirs =>
    let currentLevel := (files.filter isPdfName).map (pdfItemFor base)
    if dirs.length = 0 then currentLevel
    else
      currentLevel ++
        (dirs.attach.map fun d => collectAllPdfs (joinPath base d.1.1) d.1.2).flatten
termination_by sizeOf t
decreasing_by
  cases d; rename_i x hx
  have h1 : sizeOf x < sizeOf dirs := List.sizeOf_lt_of_mem hx
  cases x
  simp_all
  omega

/-- Spec-side: every stored file under the reference at `base`, at any
depth, as (name, full path) pairs in traversal order. -/
def allFiles (base : String) (t : STree) : List (String × String) :=
  match t with
  | .node files dirs =>
    files.map (fun n => (n, joinPath base n)) ++
      (dirs.attach.map fun d => allFiles (joinPath base d.1.1) d.1.2).flatten
termination_by sizeOf t
decreasing_by
  cases d; rename_i x hx
  have h1 : sizeOf x < sizeOf dirs := List.sizeOf_lt_of_mem hx
  cases x
  simp_all
  omega

/-! ## Helper lemmas: the string and Firestore value orders -/

theorem charListLe_refl (a : List Char) : charListLe a a = true := by
  induction a with
  | nil => rfl
  | cons x xs ih => simp [charListLe, ih]

theorem charListLe_total (a b : List Char) :
    charListLe a b = true ∨ charListLe b a = true := by
  induction a generalizing b with
  | nil => left; rfl
  | cons x xs ih =>
    cases b with
    | nil => right; rfl
    | cons y ys =>
      by_cases h1 : x.toNat < y.toNat
      · left; simp [charListLe, h1]
      · by_cases h2 : y.toNat < x.toNat
        · right; simp [charListLe, h2]
        · rcases ih ys with h | h
          · left; simp [charListLe, h1, h2, h]
          · right; simp [charListLe, h1, h2, h]

theorem charListLe_trans {a b c : List Char} (h1 : charListLe a b = true)
    (h2 : charListLe b c = true) : charListLe a c = true := by
  induction a generalizing b c with
  | nil => rfl
  | cons x xs ih =>
    cases b with
    | nil => simp [charListLe] at h1
    | cons y ys =>
      cases c with
      | nil => simp [charListLe] at h2
      | cons z zs =>
        simp only [charListLe] at h1 h2 ⊢
        by_cases hxz : x.toNat < z.toNat
        · simp [hxz]
        · by_cases hzx : z.toNat < x.toNat
          · exfalso
            split at h1
            · rename_i hxy
              split at h2
              · omega
              · split at h2
                · simp at h2
                · omega
            · split at h1
              · simp at h1
              · rename_i hxy hyx
                split at h2
                · omega
                · split at h2
                  · simp at h2
                  · omega
          · simp only [if_neg hxz, if_neg hzx]
            split at h1
            · rename_i hxy
              exfalso
              split at h2
              · omega
              · split at h2
                · simp at h2
                · omega
            · split at h1
              · simp at h1
              · rename_i hxy hyx
                split at h2
                · omega
                · split at h2
                  · simp at h2
                  · exact ih h1 h2

theorem fsLe_refl (v : IdxVal) : fsLe v v = true := by
  cases v with
  | null => rfl
  | num n => simp [fsLe]
  | str s => simp [fsLe, charListLe_refl]

theorem fsLe_total (a b : IdxVal) : fsLe a b = true ∨ fsLe b a = true := by
  cases a <;> cases b <;> simp [fsLe]
  · omega
  · exact charListLe_total _ _

theorem fsLe_trans {a b c : IdxVal} (h1 : fsLe a b = true)
    (h2 : fsLe b c = true) : fsLe a c = true := by
  cases a <;> cases b <;> cases c <;> simp_all [fsLe]
  · omega
  · exact charListLe_trans h1 h2

/-! ## Helper lemmas: the orderBy-desc / limit-1 query model -/

theorem fsMax_eq_none_iff (l : List IdxVal) : fsMax l = none ↔ l = [] := by
  cases l with
  | nil => simp [fsMax]
  | cons x xs =>
    simp only [fsMax]
    cases fsMax xs <;> simp

theorem fsMax_mem : ∀ {l : List IdxVal} {m : IdxVal}, fsMax l = some m → m ∈ l := by
  intro l
  induction l with
  | nil => intro m h; simp [fsMax] at h
  | cons x xs ih =>
    intro m h
    simp only [fsMax] at h
    cases hms : fsMax xs with
    | none =>
      rw [hms] at h
      simp at h
      simp [h]
    | some m' =>
      rw [hms] at h
      simp only [Option.some.injEq] at h
      split at h
      · simp [h]
      · right
        exact h ▸ ih hms

theorem fsMax_le :
    ∀ {l : List IdxVal} {m : IdxVal}, fsMax l = some m → ∀ v ∈ l, fsLe v m = true := by
  intro l
  induction l with
  | nil => intro m h; simp [fsMax] at h
  | cons x xs ih =>
    intro m h v hv
    simp only [fsMax] at h
    cases hms : fsMax xs with
    | none =>
      rw [hms] at h
      simp at h
      have hxs : xs = [] := (fsMax_eq_none_iff xs).mp hms
      subst hxs
      simp at hv
      subst hv
      subst h
      exact fsLe_refl v
    | some m' =>
      rw [hms] at h
      simp only [Option.some.injEq] at h
      split at h
      · rename_i hle
        subst h
        rcases List.mem_cons.mp hv with hv | hv
        · subst hv; exact fsLe_refl v
        · exact fsLe_trans (ih hms v hv) hle
      · rename_i hle
        rcases List.mem_cons.mp hv with hv2 | hv2
        · subst hv2
          rw [← h]
          rcases fsLe_total v m' with h' | h'
          · exact h'
          · exact absurd h' hle
        · rw [← h]
          exact ih hms v hv2

theorem sortBy_head_eq_fsMax (l : List IdxVal) :
    (sortBy (fun a b => fsLe b a) l).head? = fsMax l := by
  induction l with
  | nil => rfl
  | cons x xs ih =>
    simp only [sortBy, fsMax]
    cases hs : sortBy (fun a b => fsLe b a) xs with
    | nil =>
      rw [hs] at ih
      rw [← ih]
      rfl
    | cons y ys =>
      rw [hs] at ih
      rw [← ih]
      simp only [insertBy]
      by_cases h : fsLe y x = true
      · simp [h]
      · simp [h]

theorem nextFromFieldValues_eq (vals : List IdxVal) :
    nextFromFieldValues vals =
      (match fsMax vals with
       | none => 0
       | some .null => 0
       | some (.num n) => n
       | some (.str s) => (parseIntJS s).getD 0) + 1 := by
  simp only [nextFromFieldValues, sortBy_head_eq_fsMax]
  cases hm : fsMax vals with
  | none => rfl
  | some v => cases v <;> simp [jsStringOf]

/-! ## Helper lemmas: eliminating `attach` from the recursive definitions -/

theorem attach_map_eq (l : List α) (f : α → β) :
    (l.attach.map fun d => f d.1) = l.map f :=
  List.attach_map_val l f

theorem attach_any_eq (l : List α) (f : α → Bool) :
    (l.attach.any fun d => f d.1) = l.any f := by
  rcases h : l.any f with hf | ht
  · simp only [List.any_eq_false] at h ⊢
    intro d _
    exact h d.1 d.2
  · simp only [List.any_eq_true] at h ⊢
    obtain ⟨x, hx, hfx⟩ := h
    exact ⟨⟨x, hx⟩, List.mem_attach _ _, hfx⟩

theorem attach_filterMap_eq (l : List α) (g : α → Option β) :
    (l.attach.filterMap fun d => g d.1) = l.filterMap g := by
  conv_rhs => rw [← List.attach_map_subtype_val l]
  rw [List.filterMap_map]
  rfl

theorem stripUndefined_arr (l : List JsValue) :
    stripUndefined (.arr l) =
      .arr ((l.map stripUndefined).filter fun item => !item.isUndef) := by
  simp only [stripUndefined]
  rw [attach_map_eq l stripUndefined]

theorem stripUndefined_obj (fs : List (String × JsValue)) :
    stripUndefined (.obj fs) =
      .obj (fs.filterMap fun kv =>
        if !(stripUndefined kv.2).isUndef then some (kv.1, stripUndefined kv.2)
        else none) := by
  simp only [stripUndefined]
  rw [attach_filterMap_eq fs
    (fun kv => if !(stripUndefined kv.2).isUndef then some (kv.1, stripUndefined kv.2) else none)]

theorem containsUndef_arr (l : List JsValue) :
    containsUndef (.arr l) = l.any containsUndef := by
  simp only [containsUndef]
  rw [attach_any_eq l containsUndef]

theorem containsUndef_obj (fs : List (String × JsValue)) :
    containsUndef (.obj fs) = fs.any fun kv => containsUndef kv.2 := by
  simp only [containsUndef]
  rw [attach_any_eq fs (fun kv => containsUndef kv.2)]

theorem collectAllPdfs_node (base : String) (files : List String)
    (dirs : List (String × STree)) :
    collectAllPdfs base (.node files dirs) =
      (files.filter isPdfName).map (pdfItemFor base) ++
        (dirs.map fun d => collectAllPdfs (joinPath base d.1) d.2).flatten := by
  simp only [collectAllPdfs]
  rw [attach_map_eq dirs (fun d => collectAllPdfs (joinPath base d.1) d.2)]
  by_cases hd : dirs.length = 0
  · have : dirs = [] := List.length_eq_zero.mp hd
    subst this
    simp
  · simp [hd]

theorem allFiles_node (base : String) (files : List String)
    (dirs : List (String × STree)) :
    allFiles base (.node files dirs) =
      files.map (fun n => (n, joinPath base n)) ++
        (dirs.map fun d => allFiles (joinPath base d.1) d.2).flatten := by
  simp only [allFiles]
  rw [attach_map_eq dirs (fun d => allFiles (joinPath base d.1) d.2)]

/-! ## Helper lemmas: induction principles for the nested trees -/

theorem STreeInd (motive : STree → Prop)
    (h : ∀ fs ds, (∀ d ∈ ds, motive (Prod.snd d)) → motive (STree.node fs ds)) :
    ∀ t, motive t := by
  have key : ∀ n (t : STree), sizeOf t ≤ n → motive t := by
    intro n
    induction n with
    | zero =>
      intro t ht
      cases t with
      | node fs ds => simp at ht
    | succ n ih =>
      intro t ht
      cases t with
      | node fs ds =>
        apply h
        intro d hd
        apply ih
        have h1 : sizeOf d < sizeOf ds := List.sizeOf_lt_of_mem hd
        cases d
        simp_all
        omega
  intro t
  exact key (sizeOf t) t le_rfl

theorem JsValueInd (motive : JsValue → Prop)
    (hundef : motive .undef) (hnull : motive .null)
    (hbool : ∀ b, motive (.bool b)) (hnum : ∀ n, motive (.num n))
    (hstr : ∀ s, motive (.str s)) (hdate : ∀ t, motive (.date t))
    (harr : ∀ l, (∀ e ∈ l, motive e) → motive (.arr l))
    (hobj : ∀ fs, (∀ kv ∈ fs, motive (Prod.snd kv)) → motive (.obj fs)) :
    ∀ v, motive v := by
  have key : ∀ n (v : JsValue), sizeOf v ≤ n → motive v := by
    intro n
    induction n with
    | zero =>
      intro v hv
      exfalso
      cases v <;> simp_arith at hv
    | succ n ih =>
      intro v hv
      cases v with
      | undef => exact hundef
      | null => exact hnull
      | bool b => exact hbool b
      | num m => exact hnum m
      | str s => exact hstr s
      | date t => exact hdate t
      | arr l =>
        apply harr
        intro e he
        apply ih
        have h1 : sizeOf e < sizeOf l := List.sizeOf_lt_of_mem he
        simp_all
        omega
      | obj fs =>
        apply hobj
        intro kv hkv
        apply ih
        have h1 : sizeOf kv < sizeOf fs := List.sizeOf_lt_of_mem hkv
        cases kv
        simp_all
        omega
  intro v
  exact key (sizeOf v) v le_rfl

/-! ## Helper lemmas: decimal digits of Nat.repr, fold sums, sanitizer -/

theorem digitChar_isDigit {m : Nat} (h : m < 10) :
    (Nat.digitChar m).isDigit = true := by
  interval_cases m <;> decide

theorem toDigitsCore_digits :
    ∀ (f n : Nat) (acc : List Char), (∀ c ∈ acc, c.isDigit = true) →
      ∀ c ∈ Nat.toDigitsCore 10 f n acc, c.isDigit = true := by
  intro f
  induction f with
  | zero =>
    intro n acc hacc
    simpa [Nat.toDigitsCore] using hacc
  | succ f ih =>
    intro n acc hacc c hc
    simp only [Nat.toDigitsCore] at hc
    have hd : (Nat.digitChar (n % 10)).isDigit = true :=
      digitChar_isDigit (Nat.mod_lt _ (by decide))
    by_cases h0 : n / 10 = 0
    · rw [if_pos h0] at hc
      rcases List.mem_cons.mp hc with hc | hc
      · subst hc; exact hd
      · exact hacc c hc
    · rw [if_neg h0] at hc
      refine ih _ _ ?_ c hc
      intro c2 hc2
      rcases List.mem_cons.mp hc2 with hc2 | hc2
      · subst hc2; exact hd
      · exact hacc c2 hc2

theorem repr_chars_digits (n : Nat) :
    ∀ c ∈ (Nat.repr n).toList, c.isDigit = true := by
  intro c hc
  have heq : (Nat.repr n).toList = Nat.toDigitsCore 10 (n + 1) n [] := rfl
  rw [heq] at hc
  exact toDigitsCore_digits (n + 1) n [] (by simp) c hc

theorem sanitizeChar_allowed (c : Char) :
    (jsWordChar (sanitizeChar c) || sanitizeChar c = '.' || sanitizeChar c = '-') = true := by
  unfold sanitizeChar
  by_cases h : (jsWordChar c || c = '.' || c = '-') = true
  · rw [if_pos h]
    exact h
  · rw [if_neg h]
    decide

theorem foldl_add_length (l : List (String × List Presentation)) (a : Nat) :
    l.foldl (fun total s => total + s.2.length) a
      = a + (l.map fun s => s.2.length).sum := by
  induction l generalizing a with
  | nil => simp
  | cons x xs ih => simp [List.foldl_cons, ih, Nat.add_assoc]

/-! ## Claim theorems -/

/-- Claim C10: `getCurrentCongresId` never throws and always returns a
non-empty string: the stored value when it is non-empty, and the default
`Fragilite_2025` when the stored value is absent or empty or the read
throws. -/
theorem getCurrentCongresId_spec (read : Except Unit (Option String)) :
    getCurrentCongresId read ≠ "" ∧
    (∀ s, read = .ok (some s) → s ≠ "" → getCurrentCongresId read = s) ∧
    ((read = .error () ∨ read = .ok none ∨ read = .ok (some "")) →
      getCurrentCongresId read = DEFAULT_CONGRES_ID) := by
  refine ⟨?_, ?_, ?_⟩
  · cases read with
    | error e => exact (by decide : DEFAULT_CONGRES_ID ≠ "")
    | ok v =>
      cases v with
      | none => exact (by decide : DEFAULT_CONGRES_ID ≠ "")
      | some s =>
        by_cases h : s = ""
        · subst h; decide
        · simp [getCurrentCongresId, h]
  · intro s hread hs
    subst hread
    simp [getCurrentCongresId, hs]
  · intro h
    rcases h with h | h | h <;> subst h <;> simp [getCurrentCongresId]

/-- Witness for C10 at concrete inputs: a non-empty stored id is
returned as is; a missing key falls back to the default. -/
theorem getCurrentCongresId_spec_witness :
    getCurrentCongresId (.ok (some "Foo")) = "Foo" ∧
    getCurrentCongresId (.ok none) = DEFAULT_CONGRES_ID :=
  ⟨(getCurrentCongresId_spec (.ok (some "Foo"))).2.1 "Foo" rfl (by decide),
   (getCurrentCongresId_spec (.ok none)).2.2 (Or.inr (Or.inl rfl))⟩

/-- Claim C4: `countPresentationsInCongres` returns the sum over the
congress's sessions of the sizes of their presentations subcollections,
and 0 for a congress with no sessions. -/
theorem countPresentationsInCongres_spec
    (sessions : List (String × List Presentation)) :
    countPresentationsInCongres sessions
        = (sessions.map fun s => s.2.length).sum ∧
    countPresentationsInCongres [] = 0 := by
  constructor
  · unfold countPresentationsInCongres
    simpa using foldl_add_length sessions 0
  · rfl

/-- Claim C5: `pathFor` follows the fixed naming convention — for a
user-owned area with a user the path is area/uid/ts_sanitizedName, for a
shared area it is area/ts_sanitizedName, and the final path segment
contains only word characters, dots and dashes. -/
theorem pathFor_spec (area : StorageArea) (user : Option AuthUser)
    (ts : Nat) (fileName : String) :
    (userOwned.contains area = true → ∀ u, user = some u →
      pathFor area user ts fileName =
        .ok (area.text ++ "/" ++ u.uid ++ "/" ++ Nat.repr ts ++ "_"
          ++ sanitizeFileName fileName)) ∧
    (userOwned.contains area = false →
      pathFor area user ts fileName =
        .ok (area.text ++ "/" ++ Nat.repr ts ++ "_"
          ++ sanitizeFileName fileName)) ∧
    (∀ c ∈ (Nat.repr ts ++ "_" ++ sanitizeFileName fileName).toList,
      (jsWordChar c || c = '.' || c = '-') = true) := by
  refine ⟨?_, ?_, ?_⟩
  · intro hmem u hu
    subst hu
    cases area with
    | qrcodes =>
      simp only [StorageArea.text]
      rw [show (("qrcodes" : String) ++ "/") = "qrcodes/" from by decide]
      rfl
    | qrcodesCarteDeVisite =>
      simp only [StorageArea.text]
      rw [show (("qrcodesCarteDeVisite" : String) ++ "/") = "qrcodesCarteDeVisite/" from by decide]
      rfl
    | photos =>
      simp only [StorageArea.text]
      rw [show (("photos" : String) ++ "/") = "photos/" from by decide]
      rfl
    | badges =>
      simp only [StorageArea.text]
      rw [show (("badges" : String) ++ "/") = "badges/" from by decide]
      rfl
    | intervenants =>
      simp only [StorageArea.text]
      rw [show (("intervenants" : String) ++ "/") = "intervenants/" from by decide]
      rfl
    | imgIntervenants => exact absurd hmem (by decide)
    | imgSponsors => exact absurd hmem (by decide)
    | programme => exact absurd hmem (by decide)
    | abstracts => exact absurd hmem (by decide)
    | plan => exact absurd hmem (by decide)
  · intro hmem
    have hmem2 : ¬ area ∈ userOwned := by simpa using hmem
    simp [pathFor, hmem2]
  · intro c hc
    have hsplit : (Nat.repr ts ++ "_" ++ sanitizeFileName fileName).toList
        = (Nat.repr ts).toList ++ '_' :: (fileName.toList.map sanitizeChar) := by
      show ((Nat.repr ts ++ "_") ++ sanitizeFileName fileName).data = _
      rw [String.data_append, String.data_append, List.append_assoc]
      rfl
    rw [hsplit] at hc
    rcases List.mem_append.mp hc with h | h
    · have hd := repr_chars_digits ts c h
      simp [jsWordChar, Char.isAlphanum, hd]
    · rcases List.mem_cons.mp h with h | h
      · subst h; decide
      · rcases List.mem_map.mp h with ⟨c2, hc2, rfl⟩
        exact sanitizeChar_allowed c2

/-- Witness for C5: a user-owned area with a user, at a concrete
timestamp and a file name containing a space. -/
theorem pathFor_spec_witness :
    pathFor .photos (some ⟨"u1"⟩) 77 "a b.png"
      = .ok (StorageArea.photos.text ++ "/" ++ "u1" ++ "/" ++ Nat.repr 77
          ++ "_" ++ sanitizeFileName "a b.png") :=
  (pathFor_spec .photos (some ⟨"u1"⟩) 77 "a b.png").1 (by decide) ⟨"u1"⟩ rfl

/-- Claim C6: `uploadToArea` fails before any upload when the area is
admin-only-write and the caller is not an admin; `pathFor` throws when
the area is user-owned and there is no user; in every other combination
the path is computed and the upload is attempted at it. -/
theorem uploadToArea_spec (area : StorageArea) (user : Option AuthUser)
    (isAdmin : Bool) (ts : Nat) (fileName : String) :
    (adminOnlyWrite.contains area = true → isAdmin = false →
      ∃ msg, uploadToArea area user isAdmin ts fileName = .error msg) ∧
    (userOwned.contains area = true → user = none →
      ∃ msg, pathFor area user ts fileName = .error msg) ∧
    (¬(adminOnlyWrite.contains area = true ∧ isAdmin = false) →
     ¬(userOwned.contains area = true ∧ user = none) →
      ∃ p, uploadToArea area user isAdmin ts fileName = .ok p ∧
        pathFor area user ts fileName = .ok p) := by
  refine ⟨?_, ?_, ?_⟩
  · intro h1 h2
    subst h2
    have h1m : area ∈ adminOnlyWrite := by simpa using h1
    exact ⟨"Droits admin requis pour cette zone.", by simp [uploadToArea, h1m]⟩
  · intro h1 h2
    subst h2
    have h1m : area ∈ userOwned := by simpa using h1
    exact ⟨"Utilisateur requis pour cette zone.", by simp [pathFor, h1m]⟩
  · intro h1 h2
    have hgate : (adminOnlyWrite.contains area && !isAdmin) = false := by
      cases hA : adminOnlyWrite.contains area
      · simp
      · cases hI : isAdmin
        · exact absurd ⟨hA, hI⟩ h1
        · simp
    have hpath : ∃ p, pathFor area user ts fileName = .ok p := by
      cases user with
      | none =>
        cases huo : userOwned.contains area
        · have huo2 : ¬ area ∈ userOwned := by simpa using huo
          exact ⟨area.text ++ "/" ++ Nat.repr ts ++ "_" ++ sanitizeFileName fileName,
            by simp [pathFor, huo2]⟩
        · exact absurd ⟨huo, rfl⟩ h2
      | some u => cases area <;> exact ⟨_, rfl⟩
    obtain ⟨p, hp⟩ := hpath
    refine ⟨p, ?_, hp⟩
    unfold uploadToArea
    rw [hgate]
    simpa using hp

/-- Witness for C6: a non-admin is rejected from a shared admin-only
area, an anonymous user cannot get a user-owned path, and an admin
upload into a shared area proceeds with the computed path. -/
theorem uploadToArea_spec_witness :
    (∃ msg, uploadToArea .imgSponsors (some ⟨"u1"⟩) false 5 "x.png" = .error msg) ∧
    (∃ msg, pathFor .qrcodes none 5 "x.png" = .error msg) ∧
    (∃ p, uploadToArea .programme none true 5 "x.png" = .ok p ∧
      pathFor .programme none 5 "x.png" = .ok p) :=
  ⟨(uploadToArea_spec .imgSponsors (some ⟨"u1"⟩) false 5 "x.png").1 (by decide) rfl,
   (uploadToArea_spec .qrcodes none false 5 "x.png").2.1 (by decide) rfl,
   (uploadToArea_spec .programme none true 5 "x.png").2.2 (by decide) (by decide)⟩

/-- Claim C2: `swapLinkOrder` exchanges the two links' order keys
(missing orders read as 0), rewrites no other field and no other
document, and — when both links had a defined order — a second swap on
the refreshed links restores the store exactly. -/
theorem swapLinkOrder_spec (db : String → Option LinkDoc) (a b : LinkRef)
    (da dbb : LinkDoc)
    (ha : db a.id = some da) (hb : db b.id = some dbb)
    (hne : a.id ≠ b.id)
    (hao : da.order = a.order.map IdxVal.num)
    (hbo : dbb.order = b.order.map IdxVal.num) :
    (∃ db2, swapLinkOrder db a b = some db2 ∧
      db2 a.id = some { da with order := some (.num (b.order.getD 0)) } ∧
      db2 b.id = some { dbb with order := some (.num (a.order.getD 0)) } ∧
      (∀ k, k ≠ a.id → k ≠ b.id → db2 k = db k)) ∧
    (∀ x y : Int, a.order = some x → b.order = some y →
      ∀ db2, swapLinkOrder db a b = some db2 →
        swapLinkOrder db2 ⟨a.id, some y⟩ ⟨b.id, some x⟩ = some db) := by
  have hne2 : b.id ≠ a.id := Ne.symm hne
  have h1 : swapLinkOrder db a b = some (fun k =>
      if k = b.id then some { dbb with order := some (.num (a.order.getD 0)) }
      else if k = a.id then some { da with order := some (.num (b.order.getD 0)) }
      else db k) := by
    simp only [swapLinkOrder, batchUpdateOrder, ha, Option.some_bind]
    rw [if_neg hne2, hb]
  constructor
  · refine ⟨_, h1, ?_, ?_, ?_⟩
    · simp [hne]
    · simp
    · intro k hka hkb
      simp [hka, hkb]
  · intro x y hax hby db2 hdb2
    rw [h1] at hdb2
    injection hdb2 with hdb2f
    subst hdb2f
    have hdao : da.order = some (.num x) := by rw [hao, hax]; rfl
    have hdbo : dbb.order = some (.num y) := by rw [hbo, hby]; rfl
    have hda_eta : ({ da with order := some (IdxVal.num x) } : LinkDoc) = da := by
      cases da
      simp_all
    have hdb_eta : ({ dbb with order := some (IdxVal.num y) } : LinkDoc) = dbb := by
      cases dbb
      simp_all
    simp only [swapLinkOrder, batchUpdateOrder, hax, hby, Option.getD_some]
    simp only [if_neg hne, if_neg hne2, if_pos rfl, Option.some_bind]
    simp only [if_true, Option.some_bind, if_neg hne2, if_pos rfl]
    congr 1
    funext k
    by_cases hkb : k = b.id
    · subst hkb
      simp [hdb_eta, hb]
    · by_cases hka : k = a.id
      · subst hka
        simp [hne, hda_eta, ha]
      · simp [hka, hkb]

/-- Witness for C2 on a two-document store with orders 1 and 2. -/
theorem swapLinkOrder_spec_witness :
    (∃ db2,
      swapLinkOrder
        (fun k =>
          if k = "a" then some ⟨"A", "ua", none, some (.num 1), none⟩
          else if k = "b" then some ⟨"B", "ub", none, some (.num 2), none⟩
          else none)
        ⟨"a", some 1⟩ ⟨"b", some 2⟩ = some db2 ∧
      db2 "a" = some ⟨"A", "ua", none, some (.num 2), none⟩ ∧
      db2 "b" = some ⟨"B", "ub", none, some (.num 1), none⟩ ∧
      (∀ k, k ≠ "a" → k ≠ "b" → db2 k = none)) := by
  obtain ⟨hmain, _⟩ := swapLinkOrder_spec
    (fun k =>
      if k = "a" then some ⟨"A", "ua", none, some (.num 1), none⟩
      else if k = "b" then some ⟨"B", "ub", none, some (.num 2), none⟩
      else none)
    ⟨"a", some 1⟩ ⟨"b", some 2⟩
    ⟨"A", "ua", none, some (.num 1), none⟩
    ⟨"B", "ub", none, some (.num 2), none⟩
    (by decide) (by decide) (by decide) rfl rfl
  obtain ⟨db2, hswap, hda, hdb, hrest⟩ := hmain
  exact ⟨db2, hswap, hda, hdb, fun k hka hkb => by
    rw [hrest k hka hkb]
    simp [hka, hkb]⟩

/-- Counterexample to C3 as stated: a session whose single presentation
has index -5 (a value of the declared `number` type) makes
`getNextPresentationIndex` return -4, which is not ≥ 1. -/
theorem getNextPresentationIndex_counterexample :
    getNextPresentationIndex [{ index := some (.num (-5)), title := "t" }] = -4 ∧
    ¬(1 ≤ getNextPresentationIndex [{ index := some (.num (-5)), title := "t" }]) := by
  constructor
  · decide
  · decide

/-- Claim C3 (amended): `getNextPresentationIndex` returns the maximum
index (in the Firestore order, non-numbers coerced through parseInt with
fallback 0) plus 1, returns 1 for a session with no presentations, and
the result is ≥ 1 whenever the maximum is a nonnegative number. -/
theorem getNextPresentationIndex_spec (pres : List Presentation) :
    (pres = [] → getNextPresentationIndex pres = 1) ∧
    (∀ m, fsMax (pres.filterMap Presentation.index) = some m →
      (m ∈ pres.filterMap Presentation.index ∧
       ∀ v ∈ pres.filterMap Presentation.index, fsLe v m = true) ∧
      getNextPresentationIndex pres =
        (match m with
         | .null => 0
         | .num n => n
         | .str s => (parseIntJS s).getD 0) + 1) ∧
    (∀ n : Int, fsMax (pres.filterMap Presentation.index) = some (.num n) →
      0 ≤ n → 1 ≤ getNextPresentationIndex pres) := by
  refine ⟨?_, ?_, ?_⟩
  · intro h
    subst h
    decide
  · intro m hm
    refine ⟨⟨fsMax_mem hm, fsMax_le hm⟩, ?_⟩
    unfold getNextPresentationIndex
    rw [nextFromFieldValues_eq, hm]
    cases m <;> rfl
  · intro n hn hnn
    have heq : getNextPresentationIndex pres = n + 1 := by
      unfold getNextPresentationIndex
      rw [nextFromFieldValues_eq, hn]
    omega

/-- Witness for C3 (amended) on a session with numeric indexes 3 and 7. -/
theorem getNextPresentationIndex_spec_witness :
    getNextPresentationIndex
      [{ index := some (.num 3), title := "p" }, { index := some (.num 7), title := "q" }]
        = 7 + 1 ∧
    1 ≤ getNextPresentationIndex
      [{ index := some (.num 3), title := "p" }, { index := some (.num 7), title := "q" }] :=
  ⟨((getNextPresentationIndex_spec _).2.1 (.num 7) (by decide)).2,
   (getNextPresentationIndex_spec _).2.2 7 (by decide) (by decide)⟩

/-- Claim C7: when `createLink` is called without an explicit order and
every stored order is a number (as the `LinkItem` type declares), the
document it writes carries order = (max existing order, or 0 if none)
+ 1, strictly greater than every existing link's order. -/
theorem createLink_spec (links : List LinkDoc) (data : LinkData)
    (hord : data.order = none)
    (hnum : ∀ v ∈ links.filterMap LinkDoc.order, ∃ n : Int, v = .num n) :
    ∃ m : Int, (createLink links data).order = some (.num m) ∧
      (links.filterMap LinkDoc.order = [] → m = 1) ∧
      (∀ k : Int, fsMax (links.filterMap LinkDoc.order) = some (.num k) →
        m = k + 1) ∧
      (∀ d ∈ links, ∀ n : Int, d.order = some (.num n) → n < m) := by
  have hkey : ∀ d ∈ links, ∀ n : Int, d.order = some (.num n) →
      n < getNextLinkOrder links := by
    intro d hd n hn
    have hv : (IdxVal.num n) ∈ links.filterMap LinkDoc.order :=
      List.mem_filterMap.mpr ⟨d, hd, hn⟩
    have hnonempty : links.filterMap LinkDoc.order ≠ [] := by
      intro h
      rw [h] at hv
      simp at hv
    obtain ⟨mv, hmv⟩ : ∃ mv, fsMax (links.filterMap LinkDoc.order) = some mv := by
      cases hfm : fsMax (links.filterMap LinkDoc.order) with
      | none => exact absurd ((fsMax_eq_none_iff _).mp hfm) hnonempty
      | some mv => exact ⟨mv, rfl⟩
    obtain ⟨k, hk⟩ := hnum mv (fsMax_mem hmv)
    subst hk
    have hle : fsLe (.num n) (.num k) = true := fsMax_le hmv _ hv
    have hnk : n ≤ k := by simpa [fsLe] using hle
    have hval : getNextLinkOrder links = k + 1 := by
      unfold getNextLinkOrder
      rw [nextFromFieldValues_eq, hmv]
    omega
  refine ⟨getNextLinkOrder links, ?_, ?_, ?_, hkey⟩
  · simp [createLink, hord]
  · intro hempty
    unfold getNextLinkOrder
    rw [nextFromFieldValues_eq, hempty]
    decide
  · intro k hk
    unfold getNextLinkOrder
    rw [nextFromFieldValues_eq, hk]

/-- Witness for C7: one stored link with order 4; the created link gets
order 5, greater than 4. -/
theorem createLink_spec_witness :
    ∃ m : Int,
      (createLink ([⟨"A", "u", none, some (.num 4), none⟩] : List LinkDoc)
        ⟨"B", "v", none, none, none⟩).order = some (.num m) ∧
      (([⟨"A", "u", none, some (.num 4), none⟩] : List LinkDoc).filterMap LinkDoc.order
          = [] → m = 1) ∧
      (∀ k : Int,
        fsMax (([⟨"A", "u", none, some (.num 4), none⟩] : List LinkDoc).filterMap LinkDoc.order)
          = some (.num k) → m = k + 1) ∧
      (∀ d ∈ ([⟨"A", "u", none, some (.num 4), none⟩] : List LinkDoc),
        ∀ n : Int, d.order = some (.num n) → n < m) :=
  createLink_spec _ _ rfl (by
    intro v hv
    simp [List.filterMap] at hv
    exact ⟨4, hv⟩)

/-! ## Claim C8 helper lemmas -/

theorem foldl_delPres_sessions (sid : String) (l : List String) (st : FsState) :
    ((l.map (WriteOp.delPres sid)).foldl applyOp st).sessions = st.sessions := by
  induction l generalizing st with
  | nil => rfl
  | cons p ps ih =>
    simp only [List.map_cons, List.foldl_cons]
    rw [ih]
    rfl

theorem foldl_delPres_pres (sid : String) (l : List String) (st : FsState)
    (x : String × String) :
    (x ∈ ((l.map (WriteOp.delPres sid)).foldl applyOp st).pres ↔
      x ∈ st.pres ∧ (x.1 = sid → x.2 ∉ l)) := by
  induction l generalizing st with
  | nil => simp
  | cons p ps ih =>
    simp only [List.map_cons, List.foldl_cons]
    rw [ih]
    obtain ⟨x1, x2⟩ := x
    simp [applyOp, List.mem_filter, Prod.ext_iff]
    tauto

/-- Claim C8: `deleteSessionCascade` deletes the session document and
every presentation in its subcollection in one batch: on a successful
commit they are all gone and nothing else changes; on a failed commit
the state is exactly unchanged. -/
theorem deleteSessionCascade_spec (st : FsState) (sid : String) :
    (sid ∉ (deleteSessionCascade st sid true).sessions ∧
     (∀ p, (sid, p) ∉ (deleteSessionCascade st sid true).pres) ∧
     (∀ s, s ≠ sid →
       (s ∈ (deleteSessionCascade st sid true).sessions ↔ s ∈ st.sessions)) ∧
     (∀ s p, s ≠ sid →
       ((s, p) ∈ (deleteSessionCascade st sid true).pres ↔ (s, p) ∈ st.pres))) ∧
    deleteSessionCascade st sid false = st := by
  have hsplit : deleteSessionCascade st sid true =
      applyOp
        ((((st.pres.filter fun p => p.1 = sid).map Prod.snd).map
          (WriteOp.delPres sid)).foldl applyOp st)
        (.delSession sid) := by
    unfold deleteSessionCascade commitBatch
    simp [List.foldl_append]
  refine ⟨⟨?_, ?_, ?_, ?_⟩, rfl⟩
  · rw [hsplit]
    simp only [applyOp, List.mem_filter]
    intro hmem
    simp at hmem
  · intro p
    rw [hsplit]
    simp only [applyOp]
    rw [foldl_delPres_pres]
    rintro ⟨hmem, himp⟩
    have hp : p ∈ (st.pres.filter fun q => q.1 = sid).map Prod.snd :=
      List.mem_map.mpr ⟨(sid, p), List.mem_filter.mpr ⟨hmem, by simp⟩, rfl⟩
    exact himp rfl hp
  · intro s hs
    rw [hsplit]
    simp only [applyOp, List.mem_filter]
    rw [foldl_delPres_sessions]
    simp [hs]
  · intro s p hs
    rw [hsplit]
    simp only [applyOp]
    rw [foldl_delPres_pres]
    simp [hs]

/-- Witness for C8: deleting session s1 of a two-session congress
removes s1 and its presentation, keeps s2 and its presentation, and a
failed commit changes nothing. -/
theorem deleteSessionCascade_spec_witness :
    "s1" ∉ (deleteSessionCascade ⟨["s1", "s2"], [("s1", "p1"), ("s2", "p2")]⟩ "s1" true).sessions ∧
    ("s2" ∈ (deleteSessionCascade ⟨["s1", "s2"], [("s1", "p1"), ("s2", "p2")]⟩ "s1" true).sessions) ∧
    (("s2", "p2") ∈ (deleteSessionCascade ⟨["s1", "s2"], [("s1", "p1"), ("s2", "p2")]⟩ "s1" true).pres) ∧
    deleteSessionCascade ⟨["s1", "s2"], [("s1", "p1"), ("s2", "p2")]⟩ "s1" false
      = ⟨["s1", "s2"], [("s1", "p1"), ("s2", "p2")]⟩ := by
  have h := deleteSessionCascade_spec ⟨["s1", "s2"], [("s1", "p1"), ("s2", "p2")]⟩ "s1"
  exact ⟨h.1.1,
    (h.1.2.2.1 "s2" (by decide)).mpr (by decide),
    (h.1.2.2.2 "s2" "p2" (by decide)).mpr (by decide),
    h.2⟩

/-! ## Claim C9 helper lemmas -/

theorem map_id_of (l : List α) (f : α → α) (h : ∀ x ∈ l, f x = x) :
    l.map f = l := by
  induction l with
  | nil => rfl
  | cons x xs ih =>
    simp only [List.map_cons]
    rw [h x (by simp), ih fun y hy => h y (by simp [hy])]

theorem filter_true_of (l : List α) (p : α → Bool) (h : ∀ x ∈ l, p x = true) :
    l.filter p = l := by
  induction l with
  | nil => rfl
  | cons x xs ih =>
    rw [List.filter_cons, if_pos (h x (by simp)), ih fun y hy => h y (by simp [hy])]

theorem filterMap_id_of (l : List α) (g : α → Option α) (h : ∀ x ∈ l, g x = some x) :
    l.filterMap g = l := by
  induction l with
  | nil => rfl
  | cons x xs ih =>
    rw [List.filterMap_cons, h x (by simp), ih fun y hy => h y (by simp [hy])]

/-- Counterexample to C9 as stated: `stripUndefined` applied to the
value `undefined` itself returns `undefined` (primitives pass through),
so the result is not always free of undefined. -/
theorem stripUndefined_counterexample :
    stripUndefined JsValue.undef = JsValue.undef ∧
    containsUndef (stripUndefined JsValue.undef) = true := by
  constructor
  · simp [stripUndefined]
  · simp [stripUndefined, containsUndef]

/-- Claim C9 (amended): `stripUndefined` maps `undefined` to itself and
every other value to a value containing no `undefined` anywhere, and it
is idempotent on every input. -/
theorem stripUndefined_spec (v : JsValue) :
    (stripUndefined v = .undef ↔ v = .undef) ∧
    (v ≠ .undef → containsUndef (stripUndefined v) = false) ∧
    stripUndefined (stripUndefined v) = stripUndefined v := by
  induction v using JsValueInd with
  | hundef =>
    exact ⟨by simp [stripUndefined], fun h => absurd rfl h, by simp [stripUndefined]⟩
  | hnull =>
    exact ⟨by simp [stripUndefined], fun h => by simp [stripUndefined, containsUndef],
      by simp [stripUndefined]⟩
  | hbool b =>
    exact ⟨by simp [stripUndefined], fun h => by simp [stripUndefined, containsUndef],
      by simp [stripUndefined]⟩
  | hnum n =>
    exact ⟨by simp [stripUndefined], fun h => by simp [stripUndefined, containsUndef],
      by simp [stripUndefined]⟩
  | hstr s =>
    exact ⟨by simp [stripUndefined], fun h => by simp [stripUndefined, containsUndef],
      by simp [stripUndefined]⟩
  | hdate t =>
    exact ⟨by simp [stripUndefined], fun h => by simp [stripUndefined, containsUndef],
      by simp [stripUndefined]⟩
  | harr l ihl =>
    refine ⟨by simp [stripUndefined_arr], ?_, ?_⟩
    · intro _
      rw [stripUndefined_arr, containsUndef_arr, List.any_eq_false]
      intro e2 he2
      have hmem := List.mem_filter.mp he2
      obtain ⟨e, he, heq⟩ := List.mem_map.mp hmem.1
      have hnu : stripUndefined e ≠ .undef := by
        intro hh
        rw [← heq, hh] at hmem
        simp [JsValue.isUndef] at hmem
      have hene : e ≠ .undef := fun hh => hnu (by rw [hh]; simp [stripUndefined])
      rw [← heq]
      simpa using (ihl e he).2.1 hene
    · rw [stripUndefined_arr, stripUndefined_arr]
      congr 1
      have hmap : ((l.map stripUndefined).filter fun item => !item.isUndef).map stripUndefined
          = (l.map stripUndefined).filter fun item => !item.isUndef := by
        apply map_id_of
        intro x hx
        obtain ⟨e, he, heq⟩ := List.mem_map.mp (List.mem_filter.mp hx).1
        rw [← heq]
        exact (ihl e he).2.2
      rw [hmap]
      apply filter_true_of
      intro x hx
      exact (List.mem_filter.mp hx).2
  | hobj fs ihf =>
    refine ⟨by simp [stripUndefined_obj], ?_, ?_⟩
    · intro _
      rw [stripUndefined_obj, containsUndef_obj, List.any_eq_false]
      intro kv2 hkv2
      obtain ⟨kv, hkv, heq⟩ := List.mem_filterMap.mp hkv2
      by_cases hc : (!(stripUndefined kv.2).isUndef) = true
      · rw [if_pos hc] at heq
        injection heq with heq2
        have hval : kv2.2 = stripUndefined kv.2 := by rw [← heq2]
        have hnu : stripUndefined kv.2 ≠ .undef := by
          intro hh
          rw [hh] at hc
          simp [JsValue.isUndef] at hc
        have hene : kv.2 ≠ .undef := fun hh => hnu (by rw [hh]; simp [stripUndefined])
        rw [hval]
        simpa using (ihf kv hkv).2.1 hene
      · rw [if_neg hc] at heq
        exact absurd heq (by simp)
    · rw [stripUndefined_obj, stripUndefined_obj]
      congr 1
      apply filterMap_id_of
      intro x hx
      obtain ⟨kv, hkv, heq⟩ := List.mem_filterMap.mp hx
      by_cases hc : (!(stripUndefined kv.2).isUndef) = true
      · rw [if_pos hc] at heq
        injection heq with heq2
        have hval2 : x.2 = stripUndefined kv.2 := by rw [← heq2]
        have hidem : stripUndefined x.2 = x.2 := by
          rw [hval2]
          exact (ihf kv hkv).2.2
        rw [hidem]
        have hcx : (!(stripUndefined x.2).isUndef) = true := by
          rw [hidem, hval2]
          exact hc
        rw [hidem] at hcx
        rw [if_pos hcx]
      · rw [if_neg hc] at heq
        exact absurd heq (by simp)

/-- Witness for C9 (amended) on an object with an undefined field and an
array with an undefined element. -/
theorem stripUndefined_spec_witness :
    containsUndef (stripUndefined (.obj [("a", .undef), ("b", .arr [.undef, .num 3])])) = false :=
  (stripUndefined_spec (.obj [("a", .undef), ("b", .arr [.undef, .num 3])])).2.1 (by simp)

/-! ## Claim C1 helper lemma -/

theorem collectAllPdfs_eq (t : STree) : ∀ base,
    collectAllPdfs base t =
      ((allFiles base t).filter fun f => isPdfName f.1).map
        (fun f => { name := f.1, path := f.2, folder := folderOf f.2 }) := by
  induction t using STreeInd with
  | h fs ds ih =>
    intro base
    rw [collectAllPdfs_node, allFiles_node, List.filter_append, List.map_append]
    congr 1
    · rw [List.filter_map, List.map_map]
      have hfe : ((fun f : String × String => isPdfName f.1) ∘
          fun n => (n, joinPath base n)) = isPdfName := rfl
      have hge : ((fun f : String × String =>
            ({ name := f.1, path := f.2, folder := folderOf f.2 } : PdfItem)) ∘
          fun n => (n, joinPath base n)) = pdfItemFor base := rfl
      rw [hfe, hge]
    · rw [List.filter_flatten, List.map_flatten, List.map_map, List.map_map]
      congr 1
      apply List.map_congr_left
      intro d hd
      exact ih d hd (joinPath base d.1)

/-- Claim C1: `collectAllPdfs` returns exactly the stored files under
the base reference, at any depth, whose lowercased name ends in .pdf —
each with its full path and the folder cut before the last slash — and,
as long as distinct stored objects have distinct full paths (a storage
invariant), each such file appears exactly once. -/
theorem collectAllPdfs_spec (base : String) (t : STree) :
    collectAllPdfs base t =
      ((allFiles base t).filter fun f => isPdfName f.1).map
        (fun f => { name := f.1, path := f.2, folder := folderOf f.2 }) ∧
    (((allFiles base t).map Prod.snd).Nodup →
      ((collectAllPdfs base t).map PdfItem.path).Nodup) := by
  have heq := collectAllPdfs_eq t base
  refine ⟨heq, ?_⟩
  intro hnodup
  rw [heq, List.map_map]
  have hcomp : (PdfItem.path ∘ fun f : String × String =>
      ({ name := f.1, path := f.2, folder := folderOf f.2 } : PdfItem)) = Prod.snd := rfl
  rw [hcomp]
  exact List.Nodup.sublist ((List.filter_sublist _).map Prod.snd) hnodup

/-- Witness for C1 on a two-level listing with a mixed-case PDF at the
top and one PDF in a sub-folder. -/
theorem collectAllPdfs_spec_witness :
    collectAllPdfs "docs" (.node ["a.PDF", "b.txt"] [("sub", .node ["c.pdf"] [])])
      = ((allFiles "docs" (.node ["a.PDF", "b.txt"] [("sub", .node ["c.pdf"] [])])).filter
          fun f => isPdfName f.1).map
            (fun f => { name := f.1, path := f.2, folder := folderOf f.2 }) ∧
    ((collectAllPdfs "docs"
        (.node ["a.PDF", "b.txt"] [("sub", .node ["c.pdf"] [])])).map PdfItem.path).Nodup :=
  ⟨(collectAllPdfs_spec "docs" _).1,
   (collectAllPdfs_spec "docs" _).2 (by
     simp [allFiles_node, joinPath])⟩
